import Mathlib

/-!
Verification of the micrograd scalar autodiff engine (`micrograd/engine.py`)
and the thin neural-network layer on top of it (`micrograd/nn.py`).

The computation graph is embedded as an arena: a `State F` is the list of all
`Value` nodes created so far, and a node handle is its index in that list.
Operand references (`_prev`, and the operands captured by each `_backward`
closure) are handles, which makes Python's object identity literal: two nodes
are "the same object" exactly when they have the same handle.  A node created
by an operation is appended at the end of the arena, so every handle it stores
is strictly smaller than its own handle (`WF` below); this is the DAG
invariant of the source.

Numbers: the Python floats are modelled as an arbitrary `Field F`; the two
transcendental ingredients (`math.exp`, and `**` on floats) are supplied by a
`Sem F` record, so the core definitions stay computable.  All concrete graphs
are instantiated at `F := ℝ` with the intended semantics `realSem`
(`Real.exp` and real `rpow`); the concrete evaluations only ever need
`Real.exp 0 = 1`, so they are exact.

Python's `_backward` closures are represented, as suggested by the spec's
design notes, by an operator tag stored in the node (`Op`): `runBack`
dispatches on this tag and performs exactly the `+=` updates of the closure
bound by the corresponding source operation.
-/

namespace Micrograd

/-- Operator tag of a node: which forward operation produced it, together with
the operand handles (and fixed exponent) that the source's `_backward` closure
captured.  `leaf` is a node made by the bare `Value(data)` constructor, whose
`_backward` is the no-op `lambda: None`. -/
inductive Op (F : Type) where
  | leaf
  | add (a b : Nat)
  | mul (a b : Nat)
  | pow (a : Nat) (p : F)
  | exp (a : Nat)
  | tanh (a : Nat)
  deriving DecidableEq

/-- One `Value` node of `engine.py`: scalar `data`, accumulated `grad`
(initialized to 0), the `_prev` set of operand handles, the operator tag
(standing for both `_op` and the `_backward` closure), and the diagnostic
`label`. -/
structure Value (F : Type) where
  data : F
  grad : F
  prev : List Nat
  op : Op F
  label : String

/-- The arena of all nodes created so far; a handle is an index into it. -/
abbrev State (F : Type) := List (Value F)

/-- Interpretation of the two numeric function symbols the engine uses:
`expFn` for `math.exp` and `powFn` for `**` with a fixed exponent. -/
structure Sem (F : Type) where
  expFn : F → F
  powFn : F → F → F

variable {F : Type} [Field F]

/-- Out-of-range reads return this dummy node (only well-formed handles are
ever used by the theorems). -/
def blankValue : Value F := ⟨0, 0, [], .leaf, ""⟩

/-- The node stored at handle `i`. -/
def getValue (s : State F) (i : Nat) : Value F := s.getD i blankValue

def dataOf (s : State F) (i : Nat) : F := (getValue s i).data

def gradOf (s : State F) (i : Nat) : F := (getValue s i).grad

def prevOf (s : State F) (i : Nat) : List Nat := (getValue s i).prev

def opOf (s : State F) (i : Nat) : Op F := (getValue s i).op

def labelOf (s : State F) (i : Nat) : String := (getValue s i).label

/-- `node.grad = g` (plain assignment to the gradient field). -/
def setGradAt (s : State F) (i : Nat) (g : F) : State F :=
  s.set i { getValue s i with grad := g }

/-- `node.grad += c`. -/
def addGradAt (s : State F) (i : Nat) (c : F) : State F :=
  setGradAt s i (gradOf s i + c)

/-- Append a freshly constructed node; returns the new state and the new
node's handle. -/
def pushValue (s : State F) (n : Value F) : State F × Nat :=
  (s ++ [n], s.length)

/-- `Value(data)`: the bare constructor applied to a number, producing a leaf
node with `grad = 0`, empty `_prev`, `_op = ''` and `label = ''`. -/
def mkValue (s : State F) (v : F) : State F × Nat :=
  pushValue s ⟨v, 0, [], .leaf, ""⟩

/-- `set(_childern)` for a two-operand node: Python set identity semantics on
handles (the pair collapses to a singleton exactly when both operands are the
same object). -/
def mkPrev (a b : Nat) : List Nat := if a = b then [a] else [a, b]

/-- `__add__` on two existing nodes:
`out = Value(self.data + other.data, (self, other), '+')`. -/
def vadd (s : State F) (a b : Nat) : State F × Nat :=
  pushValue s ⟨dataOf s a + dataOf s b, 0, mkPrev a b, .add a b, ""⟩

/-- `__mul__` on two existing nodes:
`out = Value(self.data * other.data, (self, other), '*')`. -/
def vmul (s : State F) (a b : Nat) : State F × Nat :=
  pushValue s ⟨dataOf s a * dataOf s b, 0, mkPrev a b, .mul a b, ""⟩

/-- `__pow__` after the `isinstance` guard has accepted the numeric exponent
`p`: `out = Value(self.data**other, (self,), f'**{other}')`. -/
def vpowNum (S : Sem F) (s : State F) (a : Nat) (p : F) : State F × Nat :=
  pushValue s ⟨S.powFn (dataOf s a) p, 0, [a], .pow a p, ""⟩

/-- The duck-typed argument Python passes as the exponent of `**`: a plain
number, a graph node, or some other non-numeric object. -/
inductive ExpArg (F : Type) where
  | num (x : F)
  | node (h : Nat)
  | otherObj

/-- Failure raised by the engine. -/
inductive EngineError where
  | invalidExponent
  deriving DecidableEq

/-- `__pow__(self, other)` including its guard
`assert isinstance(other, (int, float))`: a non-numeric exponent (in
particular a graph node) raises before anything is constructed or mutated, so
the state comes back unchanged together with the error. -/
def vpow (S : Sem F) (s : State F) (a : Nat) (e : ExpArg F) :
    State F × Except EngineError Nat :=
  match e with
  | .num p => ((vpowNum S s a p).1, .ok (vpowNum S s a p).2)
  | .node _ => (s, .error .invalidExponent)
  | .otherObj => (s, .error .invalidExponent)

/-- `exp`: `out = Value(math.exp(x), (self, ), 'exp')`. -/
def vexp (S : Sem F) (s : State F) (a : Nat) : State F × Nat :=
  pushValue s ⟨S.expFn (dataOf s a), 0, [a], .exp a, ""⟩

/-- The forward value of `tanh` exactly as the source computes it:
`(math.exp(2*n)-1) / (math.exp(2*n) + 1)`. -/
def tanhF (S : Sem F) (x : F) : F :=
  (S.expFn (2 * x) - 1) / (S.expFn (2 * x) + 1)

/-- `tanh`: `out = Value(t, (self, ), 'tanh')` with `t` as in `tanhF`. -/
def vtanh (S : Sem F) (s : State F) (a : Nat) : State F × Nat :=
  pushValue s ⟨tanhF S (dataOf s a), 0, [a], .tanh a, ""⟩

/-- `__neg__`: `self * -1`, which first wraps the literal `-1` in a fresh
leaf node and then multiplies. -/
def vneg (s : State F) (a : Nat) : State F × Nat :=
  vmul (mkValue s (-1)).1 a (mkValue s (-1)).2

/-- `__sub__` on two existing nodes: `self + (-other)`. -/
def vsub (s : State F) (a b : Nat) : State F × Nat :=
  vadd (vneg s b).1 a (vneg s b).2

/-- `__truediv__` on two existing nodes: `self * other**-1`. -/
def vdiv (S : Sem F) (s : State F) (a b : Nat) : State F × Nat :=
  vmul (vpowNum S s b (-1)).1 a (vpowNum S s b (-1)).2

/-- The two mutable lists of `Value.backward`: the `visited` identity set and
the `topo` output sequence. -/
structure TopoState where
  visited : List Nat
  topo : List Nat

/-- `build_topo(v)` of `Value.backward`, verbatim:

```
if v not in visited:
    visited.add(v)
    for child in v._prev:
        build_topo(child)
topo.append(v)
```

Note the source appends `v` outside the `if`, i.e. also when `v` was already
visited.  `fuel` bounds the recursion depth; on a well-formed state every
child handle is smaller than its parent's, so `v + 1` fuel always suffices
and the bound is never hit in the theorems below. -/
def buildTopo (s : State F) : Nat → Nat → TopoState → TopoState
  | 0, _, st => st
  | fuel + 1, v, st =>
    let st1 :=
      if v ∈ st.visited then st
      else (prevOf s v).foldl (fun acc c => buildTopo s fuel c acc)
             { st with visited := v :: st.visited }
    { st1 with topo := st1.topo ++ [v] }

/-- The `topo` list that `Value.backward` builds from `root`. -/
def topoOf (s : State F) (root : Nat) : List Nat :=
  (buildTopo s (root + 1) root ⟨[], []⟩).topo

/-- One `node._backward()` call: dispatch on the operator tag and perform the
exact `+=` updates of the closure that operation bound, reading the arena in
the same left-to-right order the Python statements execute. -/
def runBack (S : Sem F) (s : State F) (i : Nat) : State F :=
  match opOf s i with
  | .leaf => s
  | .add a b =>
    addGradAt (addGradAt s a (1 * gradOf s i)) b
      (1 * gradOf (addGradAt s a (1 * gradOf s i)) i)
  | .mul a b =>
    addGradAt (addGradAt s a (dataOf s b * gradOf s i)) b
      (dataOf (addGradAt s a (dataOf s b * gradOf s i)) a *
        gradOf (addGradAt s a (dataOf s b * gradOf s i)) i)
  | .pow a p =>
    addGradAt s a ((p * S.powFn (dataOf s a) (p - 1)) * gradOf s i)
  | .exp a =>
    addGradAt s a (dataOf s i * gradOf s i)
  | .tanh a =>
    addGradAt s a ((1 - dataOf s i ^ 2) * gradOf s i)

/-- `Value.backward`: build the topo sequence, seed `self.grad = 1`, then run
every `_backward` along the reversed sequence. -/
def backward (S : Sem F) (s : State F) (root : Nat) : State F :=
  (topoOf s root).reverse.foldl (runBack S) (setGradAt s root 1)

/-- Well-formedness of the arena: every handle a node stores (its `_prev`
set and the operands captured by its `_backward` closure) points strictly
below it.  Every state actually built by the constructors above satisfies
this; it is the source's DAG invariant. -/
def opInputs : Op F → List Nat
  | .leaf => []
  | .add a b => [a, b]
  | .mul a b => [a, b]
  | .pow a _ => [a]
  | .exp a => [a]
  | .tanh a => [a]

def WF (s : State F) : Prop :=
  ∀ i, i < s.length → ∀ j ∈ prevOf s i ++ opInputs (opOf s i), j < i

instance (s : State F) : Decidable (WF s) := by
  unfold WF; infer_instance

/-- The real-number semantics intended by the source: `math.exp` is the real
exponential and `a ** p` is the real power `a ^ p`. -/
noncomputable def realSem : Sem ℝ :=
  ⟨Real.exp, fun a p => a ^ p⟩

/-- `Module.zero_grad` of `nn.py`: `for p in self.parameters(): p.grad = 0`,
applied to the handle list returned by `parameters()`. -/
def zeroGrad (s : State F) (ps : List Nat) : State F :=
  ps.foldl (fun t p => setGradAt t p 0) s

/-- A `Neuron` of `nn.py`: the handles of its weight leaves and of its bias
leaf. -/
structure Neuron where
  w : List Nat
  b : Nat
  deriving DecidableEq

/-- One leaf per value, pushed in order: the list comprehension
`[Value(random.uniform(-1,1)) for _ in range(num_inputs_for_neuron)]`, with
the random draws supplied explicitly as `vs` (the spec models the implicit
random state as a caller-provided source). -/
def pushLeaves : State F → List F → State F × List Nat
  | s, [] => (s, [])
  | s, v :: vs =>
    let r1 := mkValue s v
    let r2 := pushLeaves r1.1 vs
    (r2.1, r1.2 :: r2.2)

/-- `Neuron.__init__`: the weight leaves, then the bias leaf, with the random
draws passed explicitly. -/
def mkNeuron (s : State F) (ws : List F) (bv : F) : State F × Neuron :=
  let rw := pushLeaves s ws
  let rb := mkValue rw.1 bv
  (rb.1, ⟨rw.2, rb.2⟩)

/-- `Neuron.parameters`: `self.w + [self.b]`. -/
def neuronParams (n : Neuron) : List Nat := n.w ++ [n.b]

/-- The loop hidden in `sum((wi*xi for wi, xi in zip(self.w, x)), self.b)`:
starting from the accumulator `self.b`, form the next product `wi*xi` and add
it into the accumulator; `zip` stops at the shorter list. -/
def neuronAct : State F → List Nat → List Nat → Nat → State F × Nat
  | s, w :: ws, x :: xs, acc =>
    let m := vmul s w x
    let a := vadd m.1 acc m.2
    neuronAct a.1 ws xs a.2
  | s, _, _, acc => (s, acc)

/-- `Neuron.__call__`: `act = sum(...)` then `out = act.tanh()`. -/
def neuronCall (S : Sem F) (s : State F) (n : Neuron) (xs : List Nat) :
    State F × Nat :=
  let a := neuronAct s n.w xs n.b
  vtanh S a.1 a.2

/-- A `Layer` of `nn.py`: its neurons in order. -/
structure Layer where
  neurons : List Neuron
  deriving DecidableEq

/-- `Layer.__init__`, with each neuron's random draws passed explicitly as a
pair (weight values, bias value). -/
def mkLayer : State F → List (List F × F) → State F × Layer
  | s, [] => (s, ⟨[]⟩)
  | s, p :: ps =>
    let rn := mkNeuron s p.1 p.2
    let rl := mkLayer rn.1 ps
    (rl.1, ⟨rn.2 :: rl.2.neurons⟩)

/-- `outs = [n(x) for n in self.neurons]`. -/
def layerOuts (S : Sem F) : State F → List Neuron → List Nat → State F × List Nat
  | s, [], _ => (s, [])
  | s, n :: ns, xs =>
    let r := neuronCall S s n xs
    let rs := layerOuts S r.1 ns xs
    (rs.1, r.2 :: rs.2)

/-- What `Layer.__call__` returns: a bare node when there is exactly one
neuron, otherwise the list of output nodes. -/
inductive LayerOut where
  | single (h : Nat)
  | multi (hs : List Nat)
  deriving DecidableEq

/-- `Layer.__call__`: `return outs[0] if len(outs) == 1 else outs`. -/
def layerCall (S : Sem F) (s : State F) (l : Layer) (xs : List Nat) :
    State F × LayerOut :=
  let r := layerOuts S s l.neurons xs
  (r.1, if r.2.length = 1 then .single (r.2.headD 0) else .multi r.2)

/-- `Layer.parameters`: `params.extend(neuron.parameters())` over the neurons
in order, i.e. the concatenation of the per-neuron parameter lists. -/
def layerParams (l : Layer) : List Nat :=
  (l.neurons.map neuronParams).flatten

/-! ### Concrete graphs used by the counterexamples and witnesses -/

/-- Diamond graph: `a = Value(1.0); b = a * 2; c = b + 1; d = b + 2;
e = c * d`.  Node `b` is an operand at two different depths from the root
`e` (directly of `d` and of `c`).  Handles: `a = 0`, the literal-2 leaf
wrapped by `a * 2` is `1`, `b = 2`, the literal-1 leaf is `3`, `c = 4`, the
second literal-2 leaf is `5`, `d = 6`, `e = 7`.  The analytic derivative is
`de/da = (8a + 6) = 14` at `a = 1`. -/
def diamond (F : Type) [Field F] : State F :=
  let s0 := mkValue ([] : State F) 1
  let s1 := mkValue s0.1 2
  let s2 := vmul s1.1 0 1
  let s3 := mkValue s2.1 1
  let s4 := vadd s3.1 2 3
  let s5 := mkValue s4.1 2
  let s6 := vadd s5.1 2 5
  let s7 := vmul s6.1 4 6
  s7.1

/-- Fan-out graph of the spec's test: `a = Value(3.0); b = a + a`.
Handles: `a = 0`, `b = 1`. -/
def fanout (F : Type) [Field F] : State F :=
  (vadd (mkValue ([] : State F) 3).1 0 0).1

/-- Chain-rule graph of the spec's test: `x = Value(0.0);
y = x.tanh()`.  Handles: `x = 0`, `y = 1`. -/
def tanhGraph (S : Sem F) : State F :=
  (vtanh S (mkValue ([] : State F) 0).1 0).1

/-- A one-input neuron applied to a leaf input: `x = Value(1.0);
n = Neuron(1)` with weight draw `1` and bias draw `-1`; `out = n([x])`.
Handles: `x = 0`, `w = 1`, `b = 2`, `w*x = 3`, `b + w*x = 4`,
`tanh = 5`; the activation input is `-1 + 1*1 = 0`, so `out.data = tanh 0 = 0`
and the local tanh derivative is exactly `1`. -/
def neuronEx (S : Sem F) : State F × Neuron × Nat :=
  let rx := mkValue ([] : State F) 1
  let rn := mkNeuron rx.1 [1] (-1)
  let rc := neuronCall S rn.1 rn.2 [rx.2]
  (rc.1, rn.2, rc.2)

/-- `t` is `s` with some newly constructed nodes appended: the only way any
forward operation ever changes the arena. -/
def Extends (t s : State F) : Prop := ∃ u, t = s ++ u

/-- Two arenas with the same nodes up to their gradient accumulators: this is
everything `backward` is allowed to change. -/
def SameShape (s t : State F) : Prop :=
  s.length = t.length ∧
    ∀ i, dataOf s i = dataOf t i ∧ prevOf s i = prevOf t i ∧
      opOf s i = opOf t i ∧ labelOf s i = labelOf t i

/-- One gradient-flow edge: the backward rule of node `a` adds into node
`b`'s gradient. -/
def descEdge (s : State F) (a b : Nat) : Prop := b ∈ opInputs (opOf s a)

/-- `k` is reachable from `j` along gradient-flow edges (reflexively):
the only nodes whose gradient can be influenced by node `j`'s gradient. -/
def Desc (s : State F) (j k : Nat) : Prop :=
  Relation.ReflTransGen (descEdge s) j k

/-- The invariant of the accumulation proof: outside `j`'s descendants the
two runs agree on gradients, and at `j` they differ by exactly `c`. -/
def GradOffset (s sA sB : State F) (j : Nat) (c : F) : Prop :=
  (∀ k, ¬ Desc s j k → gradOf sA k = gradOf sB k) ∧
    gradOf sA j = gradOf sB j + c

/-- A neuron of the arena `s` realising the raw draws `p` (weight values,
bias value): correct width, in-range parameter handles, and the stored
parameter values are the draws. -/
def NeuronMatches (s : State F) (n : Neuron) (p : List F × F) : Prop :=
  n.w.length = p.1.length ∧ (∀ h ∈ neuronParams n, h < s.length) ∧
    n.w.map (dataOf s) = p.1 ∧ dataOf s n.b = p.2

/-! ### Basic arena lemmas -/

theorem getValue_append_lt (s t : State F) (i : Nat) (h : i < s.length) :
    getValue (s ++ t) i = getValue s i := by
  unfold getValue
  rw [List.getD_eq_getElem?_getD, List.getD_eq_getElem?_getD,
    List.getElem?_append_left h]

theorem getValue_append_last (s : State F) (n : Value F) :
    getValue (s ++ [n]) s.length = n := by
  unfold getValue
  rw [List.getD_eq_getElem?_getD, List.getElem?_concat_length]
  rfl

theorem getValue_of_le (s : State F) (i : Nat) (h : s.length ≤ i) :
    getValue s i = blankValue := by
  unfold getValue
  rw [List.getD_eq_getElem?_getD, List.getElem?_eq_none h]
  rfl

theorem length_setGradAt (s : State F) (i : Nat) (g : F) :
    (setGradAt s i g).length = s.length :=
  List.length_set ..

theorem length_addGradAt (s : State F) (i : Nat) (c : F) :
    (addGradAt s i c).length = s.length :=
  List.length_set ..

theorem getValue_setGradAt_ne (s : State F) {i j : Nat} (g : F) (h : j ≠ i) :
    getValue (setGradAt s i g) j = getValue s j := by
  unfold setGradAt getValue
  rw [List.getD_eq_getElem?_getD, List.getElem?_set_ne (Ne.symm h),
    ← List.getD_eq_getElem?_getD]

theorem getValue_setGradAt_self (s : State F) {i : Nat} (g : F)
    (h : i < s.length) :
    getValue (setGradAt s i g) i = { getValue s i with grad := g } := by
  unfold setGradAt getValue
  rw [List.getD_eq_getElem?_getD, List.getElem?_set_self (by simpa using h)]
  rfl

theorem setGradAt_of_le (s : State F) (i : Nat) (g : F) (h : s.length ≤ i) :
    setGradAt s i g = s := by
  unfold setGradAt
  exact List.set_eq_of_length_le h

/-- Complete description of `gradOf` after a `grad := g` assignment. -/
theorem gradOf_setGradAt (s : State F) (i k : Nat) (g : F) :
    gradOf (setGradAt s i g) k =
      if k = i ∧ i < s.length then g else gradOf s k := by
  by_cases hk : k = i
  · subst hk
    by_cases hl : k < s.length
    · rw [if_pos ⟨rfl, hl⟩]
      simp only [gradOf, getValue_setGradAt_self s g hl]
    · rw [setGradAt_of_le s k g (le_of_not_lt hl), if_neg (fun h => hl h.2)]
  · rw [if_neg (fun h => hk h.1)]
    unfold gradOf
    rw [getValue_setGradAt_ne s g hk]

/-- Complete description of `gradOf` after a `grad += c` update. -/
theorem gradOf_addGradAt (s : State F) (i k : Nat) (c : F) :
    gradOf (addGradAt s i c) k =
      if k = i ∧ i < s.length then gradOf s i + c else gradOf s k := by
  unfold addGradAt
  rw [gradOf_setGradAt]

theorem dataOf_setGradAt (s : State F) (i k : Nat) (g : F) :
    dataOf (setGradAt s i g) k = dataOf s k := by
  by_cases hk : k = i
  · subst hk
    by_cases hl : k < s.length
    · simp only [dataOf, getValue_setGradAt_self s g hl]
    · rw [setGradAt_of_le s k g (le_of_not_lt hl)]
  · unfold dataOf; rw [getValue_setGradAt_ne s g hk]

theorem prevOf_setGradAt (s : State F) (i k : Nat) (g : F) :
    prevOf (setGradAt s i g) k = prevOf s k := by
  by_cases hk : k = i
  · subst hk
    by_cases hl : k < s.length
    · simp only [prevOf, getValue_setGradAt_self s g hl]
    · rw [setGradAt_of_le s k g (le_of_not_lt hl)]
  · unfold prevOf; rw [getValue_setGradAt_ne s g hk]

theorem opOf_setGradAt (s : State F) (i k : Nat) (g : F) :
    opOf (setGradAt s i g) k = opOf s k := by
  by_cases hk : k = i
  · subst hk
    by_cases hl : k < s.length
    · simp only [opOf, getValue_setGradAt_self s g hl]
    · rw [setGradAt_of_le s k g (le_of_not_lt hl)]
  · unfold opOf; rw [getValue_setGradAt_ne s g hk]

theorem labelOf_setGradAt (s : State F) (i k : Nat) (g : F) :
    labelOf (setGradAt s i g) k = labelOf s k := by
  by_cases hk : k = i
  · subst hk
    by_cases hl : k < s.length
    · simp only [labelOf, getValue_setGradAt_self s g hl]
    · rw [setGradAt_of_le s k g (le_of_not_lt hl)]
  · unfold labelOf; rw [getValue_setGradAt_ne s g hk]

theorem SameShape.self_shape (s : State F) : SameShape s s :=
  ⟨rfl, fun _ => ⟨rfl, rfl, rfl, rfl⟩⟩

theorem SameShape.trans_shape {s t u : State F} (h1 : SameShape s t)
    (h2 : SameShape t u) : SameShape s u := by
  refine ⟨h1.1.trans h2.1, fun i => ?_⟩
  obtain ⟨a1, b1, c1, d1⟩ := h1.2 i
  obtain ⟨a2, b2, c2, d2⟩ := h2.2 i
  exact ⟨a1.trans a2, b1.trans b2, c1.trans c2, d1.trans d2⟩

theorem setGradAt_sameShape (s : State F) (i : Nat) (g : F) :
    SameShape (setGradAt s i g) s :=
  ⟨length_setGradAt s i g, fun k =>
    ⟨dataOf_setGradAt s i k g, prevOf_setGradAt s i k g,
      opOf_setGradAt s i k g, labelOf_setGradAt s i k g⟩⟩

theorem addGradAt_sameShape (s : State F) (i : Nat) (c : F) :
    SameShape (addGradAt s i c) s :=
  setGradAt_sameShape ..

theorem runBack_sameShape (S : Sem F) (s : State F) (i : Nat) :
    SameShape (runBack S s i) s := by
  unfold runBack
  split
  · exact SameShape.self_shape s
  · exact (addGradAt_sameShape ..).trans_shape (addGradAt_sameShape ..)
  · exact (addGradAt_sameShape ..).trans_shape (addGradAt_sameShape ..)
  · exact addGradAt_sameShape ..
  · exact addGradAt_sameShape ..
  · exact addGradAt_sameShape ..

theorem foldl_runBack_sameShape (S : Sem F) (l : List Nat) :
    ∀ s : State F, SameShape (l.foldl (runBack S) s) s := by
  induction l with
  | nil => exact fun s => SameShape.self_shape s
  | cons i l ih =>
    intro s
    exact (ih (runBack S s i)).trans_shape (runBack_sameShape S s i)

/-- `Value.backward` can change nothing but gradient accumulators. -/
theorem backward_sameShape (S : Sem F) (s : State F) (root : Nat) :
    SameShape (backward S s root) s :=
  (foldl_runBack_sameShape ..).trans_shape (setGradAt_sameShape ..)

theorem Extends.self_ext (s : State F) : Extends s s := ⟨[], (List.append_nil s).symm⟩

theorem Extends.push (s : State F) (n : Value F) : Extends (s ++ [n]) s :=
  ⟨[n], rfl⟩

theorem Extends.trans_ext {s t u : State F} (h1 : Extends s t) (h2 : Extends t u) :
    Extends s u := by
  obtain ⟨a, ha⟩ := h1
  obtain ⟨b, hb⟩ := h2
  exact ⟨b ++ a, by rw [ha, hb, List.append_assoc]⟩

theorem Extends.length_le {s t : State F} (h : Extends t s) :
    s.length ≤ t.length := by
  obtain ⟨u, hu⟩ := h
  simp [hu]

theorem Extends.getValue_eq {s t : State F} (h : Extends t s) {i : Nat}
    (hi : i < s.length) : getValue t i = getValue s i := by
  obtain ⟨u, hu⟩ := h
  rw [hu, getValue_append_lt s u i hi]

theorem Extends.dataOf_eq {s t : State F} (h : Extends t s) {i : Nat}
    (hi : i < s.length) : dataOf t i = dataOf s i := by
  unfold dataOf; rw [h.getValue_eq hi]

/-! ### Gradient reset (`Module.zero_grad`) -/

theorem gradOf_zeroGrad_not_mem (ps : List Nat) :
    ∀ (s : State F) (p : Nat), p ∉ ps → gradOf (zeroGrad s ps) p = gradOf s p := by
  induction ps with
  | nil => intro s p _; rfl
  | cons q ps ih =>
    intro s p hp
    have hpq : p ≠ q := fun h => hp (h ▸ List.mem_cons_self q ps)
    have hps : p ∉ ps := fun h => hp (List.mem_cons_of_mem q h)
    show gradOf (zeroGrad (setGradAt s q 0) ps) p = gradOf s p
    rw [ih (setGradAt s q 0) p hps, gradOf_setGradAt,
      if_neg (fun h => hpq h.1)]

/-! ### Claim theorems -/

/-- C2: the ordering phase of `backward` is supposed to append every
reachable node exactly once, in post-order.  On the diamond graph (node `b`,
handle 2, is an operand of both `c` and `d`) the sequence the code builds is
`[0,1,2,3,4,2,5,6,7]`: handle 2 appears twice — once per consumer — because
the source's `topo.append(v)` sits outside the `if v not in visited:` guard.
The resulting sequence is not duplicate-free, so it is not a topological
order of the reachable nodes. -/
theorem buildTopo_appends_shared_node_twice :
    topoOf (diamond ℝ) 7 = [0, 1, 2, 3, 4, 2, 5, 6, 7] ∧
      ¬ (topoOf (diamond ℝ) 7).Nodup := by
  constructor
  · rfl
  · rw [show topoOf (diamond ℝ) 7 = [0, 1, 2, 3, 4, 2, 5, 6, 7] from rfl]
    decide

/-- C1: on the diamond graph `a = 1; b = a*2; c = b+1; d = b+2; e = c*d`,
where `b` is used as an operand at two different depths from the root `e`,
`backward(e)` leaves `a.grad = 20`, while the true derivative — which the
docstring of `backward` promises — is `de/da = 14`.  The cause: `b` occurs
twice in the topo sequence, so its `_backward` runs twice, once with a
partially accumulated gradient.  (Under the other possible `set` iteration
order of `e._prev` the code yields `22`; it is wrong in every order.) -/
theorem backward_shared_node_gradient_wrong :
    gradOf (backward realSem (diamond ℝ) 7) 0 = 20 ∧
      gradOf (backward realSem (diamond ℝ) 7) 0 ≠ 14 ∧
      deriv (fun a : ℝ => (a * 2 + 1) * (a * 2 + 2)) 1 = 14 := by
  have h20 : gradOf (backward realSem (diamond ℝ) 7) 0 = 20 := by
    norm_num [backward, topoOf, buildTopo, runBack, diamond, mkValue, vmul,
      vadd, pushValue, setGradAt, addGradAt, gradOf, dataOf, opOf, prevOf,
      getValue, mkPrev, List.getD, realSem]
  refine ⟨h20, by rw [h20]; norm_num, by norm_num⟩

/-- C4: fan-out accumulation on `a = Value(3.0); b = a + a`.  The two
operands of `b` are the same object, so its `_backward` adds `out.grad` into
`a.grad` twice, yielding `a.grad = 2` (not `1`) after `backward(b)`. -/
theorem fanout_gradient_accumulates :
    gradOf (backward realSem (fanout ℝ) 1) 0 = 2 ∧
      gradOf (backward realSem (fanout ℝ) 1) 0 ≠ 1 := by
  have h2 : gradOf (backward realSem (fanout ℝ) 1) 0 = 2 := by
    norm_num [backward, topoOf, buildTopo, runBack, fanout, mkValue, vadd,
      pushValue, setGradAt, addGradAt, gradOf, dataOf, opOf, prevOf,
      getValue, mkPrev, List.getD, realSem]
  exact ⟨h2, by rw [h2]; norm_num⟩

/-- C6: `power` with an exponent that is not a plain number — in particular a
graph node, or any other non-numeric object — fails with `InvalidExponent`
before anything is constructed: the arena comes back exactly unchanged, so no
existing node's value, gradient, operand set or operator tag is touched. -/
theorem pow_rejects_nonnumeric_exponent (S : Sem F) (s : State F) (a h : Nat) :
    vpow S s a (.node h) = (s, .error .invalidExponent) ∧
      vpow S s a .otherObj = (s, .error .invalidExponent) :=
  ⟨rfl, rfl⟩

/-- C3 counterexample: a one-input `Neuron` (weight draw 1, bias draw `-1`)
applied to the leaf `x = 1`.  The first `backward` from the tanh output gives
the weight gradient `1`.  `zero_grad` resets only the parameters (weight and
bias), not the interior nodes of the retained graph, so a second `backward`
from the same root accumulates on top of the stale interior gradients and
gives the weight gradient `3` — not the same gradients as the first pass. -/
theorem neuron_second_backward_differs :
    gradOf (backward realSem (neuronEx realSem).1 (neuronEx realSem).2.2) 1
        = 1 ∧
      gradOf (backward realSem
          (zeroGrad
            (backward realSem (neuronEx realSem).1 (neuronEx realSem).2.2)
            (neuronParams (neuronEx realSem).2.1))
          (neuronEx realSem).2.2) 1 = 3 ∧
      gradOf (backward realSem
          (zeroGrad
            (backward realSem (neuronEx realSem).1 (neuronEx realSem).2.2)
            (neuronParams (neuronEx realSem).2.1))
          (neuronEx realSem).2.2) 1
        ≠ gradOf (backward realSem (neuronEx realSem).1
            (neuronEx realSem).2.2) 1 := by
  have e1 : gradOf (backward realSem (neuronEx realSem).1
      (neuronEx realSem).2.2) 1 = 1 := by
    norm_num [backward, topoOf, buildTopo, runBack, neuronEx, mkValue, vmul,
      vadd, vtanh, mkNeuron, pushLeaves, neuronCall, neuronAct, pushValue,
      setGradAt, addGradAt, gradOf, dataOf, opOf, prevOf, getValue, mkPrev,
      List.getD, tanhF, realSem, Real.exp_zero]
  have e2 : gradOf (backward realSem
      (zeroGrad
        (backward realSem (neuronEx realSem).1 (neuronEx realSem).2.2)
        (neuronParams (neuronEx realSem).2.1))
      (neuronEx realSem).2.2) 1 = 3 := by
    norm_num [backward, topoOf, buildTopo, runBack, neuronEx, mkValue, vmul,
      vadd, vtanh, mkNeuron, pushLeaves, neuronCall, neuronAct, neuronParams,
      zeroGrad, pushValue, setGradAt, addGradAt, gradOf, dataOf, opOf,
      prevOf, getValue, mkPrev, List.getD, tanhF, realSem, Real.exp_zero]
  refine ⟨e1, e2, ?_⟩
  rw [e1, e2]
  norm_num

/-- C3 (amended): `zero_grad` does leave every parameter's gradient exactly
`0` — for every parameter handle in range, whatever gradients were
accumulated before.  (That a subsequent `backward` from the same root then
reproduces the first pass's gradients is refuted by the counterexample: the
non-parameter nodes of the retained graph keep their stale gradients and are
accumulated into again.) -/
theorem zeroGrad_zeroes_parameters (s : State F) (ps : List Nat) (p : Nat)
    (hp : p ∈ ps) (hl : p < s.length) :
    gradOf (zeroGrad s ps) p = 0 := by
  induction ps generalizing s with
  | nil => cases hp
  | cons q ps ih =>
    show gradOf (zeroGrad (setGradAt s q 0) ps) p = 0
    by_cases hmem : p ∈ ps
    · exact ih (setGradAt s q 0) hmem
        (by rw [length_setGradAt]; exact hl)
    · have hpq : p = q := by
        rcases List.mem_cons.mp hp with h | h
        · exact h
        · exact absurd h hmem
      subst hpq
      rw [gradOf_zeroGrad_not_mem ps (setGradAt s p 0) p hmem,
        gradOf_setGradAt, if_pos ⟨rfl, hl⟩]

/-- Witness for the amended C3 theorem at a concrete input: resetting the
parameter list `[0]` of the fan-out graph zeroes node 0's gradient. -/
theorem zeroGrad_zeroes_parameters_witness :
    gradOf (zeroGrad (fanout ℝ) [0]) 0 = 0 :=
  zeroGrad_zeroes_parameters (fanout ℝ) [0] 0 (by decide) (by decide)

/-- C7: `hyperbolic_tangent` (i) stores as the fresh node's value exactly
`(e^{2x}-1)/(e^{2x}+1)` of its operand's value, (ii) its backward rule adds
`(1 - out.value²) · out.gradient` into the operand's gradient, and (iii) on
the chain-rule graph `x = Value(0.0); y = x.tanh()`, `backward(y)` leaves
`x.grad = 1` (using `exp 0 = 1`, so `tanh 0 = 0` exactly). -/
theorem tanh_forward_and_backward_rule (S : Sem F) (s : State F) (a i : Nat)
    (hop : opOf s i = .tanh a) (hS : S.expFn 0 = 1) :
    dataOf (vtanh S s a).1 (vtanh S s a).2 = tanhF S (dataOf s a) ∧
      (vtanh S s a).2 = s.length ∧
      runBack S s i = addGradAt s a ((1 - dataOf s i ^ 2) * gradOf s i) ∧
      gradOf (backward S (tanhGraph S) 1) 0 = 1 := by
  refine ⟨?_, rfl, ?_, ?_⟩
  · show dataOf (s ++ [_]) s.length = _
    unfold dataOf
    rw [getValue_append_last]
  · simp only [runBack, hop]
  · norm_num [backward, topoOf, buildTopo, runBack, tanhGraph, vtanh, mkValue,
      pushValue, setGradAt, addGradAt, gradOf, dataOf, opOf, prevOf, getValue,
      List.getD, tanhF, hS]

/-- Witness for the C7 theorem: the real semantics at the concrete chain-rule
graph, with the tanh node at handle 1 and its operand at handle 0. -/
theorem tanh_forward_and_backward_rule_witness :
    dataOf (vtanh realSem (tanhGraph realSem) 0).1
        (vtanh realSem (tanhGraph realSem) 0).2
      = tanhF realSem (dataOf (tanhGraph realSem) 0) ∧
      (vtanh realSem (tanhGraph realSem) 0).2 = (tanhGraph realSem).length ∧
      runBack realSem (tanhGraph realSem) 1
        = addGradAt (tanhGraph realSem) 0
            ((1 - dataOf (tanhGraph realSem) 1 ^ 2) *
              gradOf (tanhGraph realSem) 1) ∧
      gradOf (backward realSem (tanhGraph realSem) 1) 0 = 1 :=
  tanh_forward_and_backward_rule realSem (tanhGraph realSem) 0 1 rfl
    Real.exp_zero

/-! ### Well-formedness and descendants (for the seed/accumulation claim) -/

theorem dataOf_addGradAt (s : State F) (i k : Nat) (c : F) :
    dataOf (addGradAt s i c) k = dataOf s k :=
  dataOf_setGradAt ..

theorem gradOf_addGradAt_ne (s : State F) {i k : Nat} (c : F) (hki : k ≠ i) :
    gradOf (addGradAt s i c) k = gradOf s k := by
  rw [gradOf_addGradAt, if_neg (fun h => hki h.1)]

theorem wf_opInputs_lt {s : State F} (hw : WF s) {i k : Nat}
    (hk : k ∈ opInputs (opOf s i)) : k < i := by
  by_cases hi : i < s.length
  · exact hw i hi k (List.mem_append_right _ hk)
  · rw [show opOf s i = Op.leaf by
      unfold opOf; rw [getValue_of_le s i (le_of_not_lt hi)]; rfl] at hk
    simp [opInputs] at hk

theorem wf_prev_lt {s : State F} (hw : WF s) {i k : Nat}
    (hk : k ∈ prevOf s i) : k < i := by
  by_cases hi : i < s.length
  · exact hw i hi k (List.mem_append_left _ hk)
  · rw [show prevOf s i = [] by
      unfold prevOf; rw [getValue_of_le s i (le_of_not_lt hi)]; rfl] at hk
    cases hk

theorem Desc.le {s : State F} (hw : WF s) {j k : Nat} (h : Desc s j k) :
    k ≤ j := by
  induction h with
  | refl => exact le_refl j
  | tail _ e ih => exact le_trans (le_of_lt (wf_opInputs_lt hw e)) ih

theorem GradOffset.upd_eq {s sA sB : State F} {j : Nat} {c : F}
    (h : GradOffset s sA sB j c) (hlenA : sA.length = s.length)
    (hlenB : sB.length = s.length) (t : Nat) (co : F) :
    GradOffset s (addGradAt sA t co) (addGradAt sB t co) j c := by
  constructor
  · intro k hk
    rw [gradOf_addGradAt, gradOf_addGradAt, hlenA, hlenB]
    by_cases hkt : k = t ∧ t < s.length
    · rw [if_pos hkt, if_pos hkt, ← hkt.1, h.1 k hk]
    · rw [if_neg hkt, if_neg hkt]
      exact h.1 k hk
  · rw [gradOf_addGradAt, gradOf_addGradAt, hlenA, hlenB]
    by_cases hjt : j = t ∧ t < s.length
    · rw [if_pos hjt, if_pos hjt, ← hjt.1, h.2]
      ring
    · rw [if_neg hjt, if_neg hjt]
      exact h.2

theorem GradOffset.upd_desc {s sA sB : State F} {j : Nat} {c : F}
    (h : GradOffset s sA sB j c) {t : Nat} (hD : Desc s j t) (htj : t ≠ j)
    (coA coB : F) :
    GradOffset s (addGradAt sA t coA) (addGradAt sB t coB) j c := by
  constructor
  · intro k hk
    have hkt : k ≠ t := fun e => hk (e ▸ hD)
    rw [gradOf_addGradAt_ne sA coA hkt, gradOf_addGradAt_ne sB coB hkt]
    exact h.1 k hk
  · rw [gradOf_addGradAt_ne sA coA (Ne.symm htj),
      gradOf_addGradAt_ne sB coB (Ne.symm htj)]
    exact h.2

/-- Equation lemmas for `runBack`, one per operator tag. -/
theorem runBack_of_leaf (S : Sem F) {s : State F} {i : Nat}
    (hop : opOf s i = .leaf) : runBack S s i = s := by
  unfold runBack; rw [hop]

theorem runBack_of_add (S : Sem F) {s : State F} {i a b : Nat}
    (hop : opOf s i = .add a b) :
    runBack S s i =
      addGradAt (addGradAt s a (1 * gradOf s i)) b
        (1 * gradOf (addGradAt s a (1 * gradOf s i)) i) := by
  unfold runBack; rw [hop]

theorem runBack_of_mul (S : Sem F) {s : State F} {i a b : Nat}
    (hop : opOf s i = .mul a b) :
    runBack S s i =
      addGradAt (addGradAt s a (dataOf s b * gradOf s i)) b
        (dataOf (addGradAt s a (dataOf s b * gradOf s i)) a *
          gradOf (addGradAt s a (dataOf s b * gradOf s i)) i) := by
  unfold runBack; rw [hop]

theorem runBack_of_pow (S : Sem F) {s : State F} {i a : Nat} {p : F}
    (hop : opOf s i = .pow a p) :
    runBack S s i =
      addGradAt s a ((p * S.powFn (dataOf s a) (p - 1)) * gradOf s i) := by
  unfold runBack; rw [hop]

theorem runBack_of_exp (S : Sem F) {s : State F} {i a : Nat}
    (hop : opOf s i = .exp a) :
    runBack S s i = addGradAt s a (dataOf s i * gradOf s i) := by
  unfold runBack; rw [hop]

theorem runBack_of_tanh (S : Sem F) {s : State F} {i a : Nat}
    (hop : opOf s i = .tanh a) :
    runBack S s i = addGradAt s a ((1 - dataOf s i ^ 2) * gradOf s i) := by
  unfold runBack; rw [hop]

/-- One `_backward` call preserves the offset invariant: when the node run is
not a descendant of `j`, the two runs compute identical contributions; when it
is, all its targets are strict descendants of `j` and neither `j` nor the
agreeing region is touched. -/
theorem runBack_gradOffset (S : Sem F) {s sA sB : State F} (hw : WF s)
    {j : Nat} {c : F} (i : Nat) (hA : SameShape sA s) (hB : SameShape sB s)
    (h : GradOffset s sA sB j c) :
    GradOffset s (runBack S sA i) (runBack S sB i) j c := by
  have hopA : opOf sA i = opOf s i := (hA.2 i).2.2.1
  have hopB : opOf sB i = opOf s i := (hB.2 i).2.2.1
  cases hop : opOf s i with
  | leaf =>
    rw [runBack_of_leaf S (hopA.trans hop), runBack_of_leaf S (hopB.trans hop)]
    exact h
  | add a b =>
    rw [runBack_of_add S (hopA.trans hop), runBack_of_add S (hopB.trans hop)]
    have hai : a < i := wf_opInputs_lt hw (by rw [hop]; simp [opInputs])
    have hbi : b < i := wf_opInputs_lt hw (by rw [hop]; simp [opInputs])
    by_cases hD : Desc s j i
    · have hij : i ≤ j := Desc.le hw hD
      have hDa : Desc s j a :=
        hD.tail (show descEdge s i a by unfold descEdge; rw [hop]; simp [opInputs])
      have hDb : Desc s j b :=
        hD.tail (show descEdge s i b by unfold descEdge; rw [hop]; simp [opInputs])
      exact (h.upd_desc hDa (by omega) _ _).upd_desc hDb (by omega) _ _
    · have hgi : gradOf sA i = gradOf sB i := h.1 i hD
      rw [gradOf_addGradAt_ne sA _ (ne_of_gt hai),
        gradOf_addGradAt_ne sB _ (ne_of_gt hai), ← hgi]
      exact (h.upd_eq hA.1 hB.1 a _).upd_eq
        (by rw [length_addGradAt]; exact hA.1)
        (by rw [length_addGradAt]; exact hB.1) b _
  | mul a b =>
    rw [runBack_of_mul S (hopA.trans hop), runBack_of_mul S (hopB.trans hop)]
    have hai : a < i := wf_opInputs_lt hw (by rw [hop]; simp [opInputs])
    have hbi : b < i := wf_opInputs_lt hw (by rw [hop]; simp [opInputs])
    by_cases hD : Desc s j i
    · have hij : i ≤ j := Desc.le hw hD
      have hDa : Desc s j a :=
        hD.tail (show descEdge s i a by unfold descEdge; rw [hop]; simp [opInputs])
      have hDb : Desc s j b :=
        hD.tail (show descEdge s i b by unfold descEdge; rw [hop]; simp [opInputs])
      exact (h.upd_desc hDa (by omega) _ _).upd_desc hDb (by omega) _ _
    · have hgi : gradOf sA i = gradOf sB i := h.1 i hD
      rw [gradOf_addGradAt_ne sA _ (ne_of_gt hai),
        gradOf_addGradAt_ne sB _ (ne_of_gt hai), dataOf_addGradAt,
        dataOf_addGradAt, ← hgi, (hA.2 a).1, (hA.2 b).1, (hB.2 a).1,
        (hB.2 b).1]
      exact (h.upd_eq hA.1 hB.1 a _).upd_eq
        (by rw [length_addGradAt]; exact hA.1)
        (by rw [length_addGradAt]; exact hB.1) b _
  | pow a p =>
    rw [runBack_of_pow S (hopA.trans hop), runBack_of_pow S (hopB.trans hop)]
    have hai : a < i := wf_opInputs_lt hw (by rw [hop]; simp [opInputs])
    by_cases hD : Desc s j i
    · have hij : i ≤ j := Desc.le hw hD
      have hDa : Desc s j a :=
        hD.tail (show descEdge s i a by unfold descEdge; rw [hop]; simp [opInputs])
      exact h.upd_desc hDa (by omega) _ _
    · have hgi : gradOf sA i = gradOf sB i := h.1 i hD
      rw [← hgi, (hA.2 a).1, (hB.2 a).1]
      exact h.upd_eq hA.1 hB.1 a _
  | exp a =>
    rw [runBack_of_exp S (hopA.trans hop), runBack_of_exp S (hopB.trans hop)]
    have hai : a < i := wf_opInputs_lt hw (by rw [hop]; simp [opInputs])
    by_cases hD : Desc s j i
    · have hij : i ≤ j := Desc.le hw hD
      have hDa : Desc s j a :=
        hD.tail (show descEdge s i a by unfold descEdge; rw [hop]; simp [opInputs])
      exact h.upd_desc hDa (by omega) _ _
    · have hgi : gradOf sA i = gradOf sB i := h.1 i hD
      rw [← hgi, (hA.2 i).1, (hB.2 i).1]
      exact h.upd_eq hA.1 hB.1 a _
  | tanh a =>
    rw [runBack_of_tanh S (hopA.trans hop), runBack_of_tanh S (hopB.trans hop)]
    have hai : a < i := wf_opInputs_lt hw (by rw [hop]; simp [opInputs])
    by_cases hD : Desc s j i
    · have hij : i ≤ j := Desc.le hw hD
      have hDa : Desc s j a :=
        hD.tail (show descEdge s i a by unfold descEdge; rw [hop]; simp [opInputs])
      exact h.upd_desc hDa (by omega) _ _
    · have hgi : gradOf sA i = gradOf sB i := h.1 i hD
      rw [← hgi, (hA.2 i).1, (hB.2 i).1]
      exact h.upd_eq hA.1 hB.1 a _

theorem foldl_gradOffset (S : Sem F) {s : State F} (hw : WF s) {j : Nat}
    {c : F} :
    ∀ (l : List Nat) {sA sB : State F}, SameShape sA s → SameShape sB s →
      GradOffset s sA sB j c →
      GradOffset s (l.foldl (runBack S) sA) (l.foldl (runBack S) sB) j c := by
  intro l
  induction l with
  | nil => exact fun hA hB h => h
  | cons i l ih =>
    intro sA sB hA hB h
    exact ih ((runBack_sameShape S sA i).trans_shape hA)
      ((runBack_sameShape S sB i).trans_shape hB)
      (runBack_gradOffset S hw i hA hB h)

/-- `build_topo` reads nothing but the `_prev` sets, so two arenas with the
same operand structure produce the same traversal. -/
theorem buildTopo_congr {s1 s2 : State F}
    (hprev : ∀ v, prevOf s1 v = prevOf s2 v) :
    ∀ (fuel v : Nat) (st : TopoState),
      buildTopo s1 fuel v st = buildTopo s2 fuel v st := by
  intro fuel
  induction fuel with
  | zero => intro v st; rfl
  | succ fuel ih =>
    intro v st
    have hfold : ∀ (cs : List Nat) (st' : TopoState),
        cs.foldl (fun acc c => buildTopo s1 fuel c acc) st'
          = cs.foldl (fun acc c => buildTopo s2 fuel c acc) st' := by
      intro cs
      induction cs with
      | nil => intro st'; rfl
      | cons d cs ihc =>
        intro st'
        rw [List.foldl_cons, List.foldl_cons, ih d st', ihc]
    unfold buildTopo
    simp only [hprev v, hfold]

theorem topoOf_setGradAt (s : State F) (i : Nat) (g : F) (root : Nat) :
    topoOf (setGradAt s i g) root = topoOf s root := by
  unfold topoOf
  rw [buildTopo_congr (fun v => prevOf_setGradAt s i v g) (root + 1) root]

theorem topoOf_addGradAt (s : State F) (i : Nat) (c : F) (root : Nat) :
    topoOf (addGradAt s i c) root = topoOf s root :=
  topoOf_setGradAt ..

/-- Every node `build_topo` appends is bounded by the root it was called
from: handles strictly decrease along `_prev` edges. -/
theorem buildTopo_topo_le {s : State F} (hw : WF s) (B : Nat) :
    ∀ (fuel v : Nat) (st : TopoState), v ≤ B → (∀ x ∈ st.topo, x ≤ B) →
      ∀ x ∈ (buildTopo s fuel v st).topo, x ≤ B := by
  intro fuel
  induction fuel with
  | zero => intro v st _ hst; exact hst
  | succ fuel ih =>
    intro v st hv hst
    unfold buildTopo
    by_cases hmem : v ∈ st.visited
    · simp only [if_pos hmem]
      intro x hx
      rcases List.mem_append.mp hx with hx | hx
      · exact hst x hx
      · rw [List.mem_singleton.mp hx]; exact hv
    · simp only [if_neg hmem]
      have hfold : ∀ (cs : List Nat) (st' : TopoState), (∀ c ∈ cs, c ≤ B) →
          (∀ x ∈ st'.topo, x ≤ B) →
          ∀ x ∈ (cs.foldl (fun acc c => buildTopo s fuel c acc) st').topo,
            x ≤ B := by
        intro cs
        induction cs with
        | nil => intro st' _ h; exact h
        | cons d cs ihc =>
          intro st' hcs h
          rw [List.foldl_cons]
          exact ihc _ (fun c hc => hcs c (List.mem_cons_of_mem d hc))
            (ih d _ (hcs d (List.mem_cons_self d cs)) h)
      intro x hx
      rcases List.mem_append.mp hx with hx | hx
      · exact hfold (prevOf s v) ⟨v :: st.visited, st.topo⟩
          (fun c hc => le_trans (le_of_lt (wf_prev_lt hw hc)) hv) hst x hx
      · rw [List.mem_singleton.mp hx]; exact hv

theorem topoOf_le {s : State F} (hw : WF s) (root : Nat) :
    ∀ x ∈ topoOf s root, x ≤ root := by
  intro x hx
  exact buildTopo_topo_le hw root (root + 1) root ⟨[], []⟩ (le_refl root)
    (fun y hy => by cases hy) x hx

/-- A `_backward` call can only change gradients of the operands its closure
captured. -/
theorem runBack_grad_not_input (S : Sem F) (t : State F) (i k : Nat)
    (hk : k ∉ opInputs (opOf t i)) : gradOf (runBack S t i) k = gradOf t k := by
  cases hop : opOf t i with
  | leaf => rw [runBack_of_leaf S hop]
  | add a b =>
    rw [hop] at hk
    simp only [opInputs, List.mem_cons, not_or] at hk
    rw [runBack_of_add S hop, gradOf_addGradAt_ne _ _ hk.2.1,
      gradOf_addGradAt_ne _ _ hk.1]
  | mul a b =>
    rw [hop] at hk
    simp only [opInputs, List.mem_cons, not_or] at hk
    rw [runBack_of_mul S hop, gradOf_addGradAt_ne _ _ hk.2.1,
      gradOf_addGradAt_ne _ _ hk.1]
  | pow a p =>
    rw [hop] at hk
    simp only [opInputs, List.mem_cons, not_or] at hk
    rw [runBack_of_pow S hop, gradOf_addGradAt_ne _ _ hk.1]
  | exp a =>
    rw [hop] at hk
    simp only [opInputs, List.mem_cons, not_or] at hk
    rw [runBack_of_exp S hop, gradOf_addGradAt_ne _ _ hk.1]
  | tanh a =>
    rw [hop] at hk
    simp only [opInputs, List.mem_cons, not_or] at hk
    rw [runBack_of_tanh S hop, gradOf_addGradAt_ne _ _ hk.1]

/-- Running `_backward` along any list of nodes bounded by `root` never
touches `root`'s own gradient (no reachable node has the root as operand). -/
theorem foldl_runBack_grad_root (S : Sem F) {s : State F} (hw : WF s)
    (root : Nat) :
    ∀ (l : List Nat) (t : State F), SameShape t s → (∀ k ∈ l, k ≤ root) →
      gradOf (l.foldl (runBack S) t) root = gradOf t root := by
  intro l
  induction l with
  | nil => intro t _ _; rfl
  | cons i l ih =>
    intro t ht hl
    rw [List.foldl_cons,
      ih (runBack S t i) ((runBack_sameShape S t i).trans_shape ht)
        (fun k hk => hl k (List.mem_cons_of_mem i hk))]
    apply runBack_grad_not_input
    intro hmem
    rw [(ht.2 i).2.2.1] at hmem
    have : root < i := wf_opInputs_lt hw hmem
    have : i ≤ root := hl i (List.mem_cons_self i l)
    omega

/-- C5: on a well-formed graph, `backward(root)` (i) builds a topological
order that is a function of the operand structure only, so it is unaffected
by any gradient value (the seed is assigned only after the order is built);
(ii) seeds `root.grad` to exactly `1` by overwriting — whatever value `g` the
root's gradient held before, it ends at `1`, and no reachable node's rule can
add to the root; and (iii) never implicitly resets any other node: adding `c`
to node `j`'s gradient beforehand shifts `j`'s final gradient by exactly `c`,
i.e. the final gradient is the prior gradient plus the contributions of this
pass, which do not depend on `j`'s prior gradient. -/
theorem backward_seed_overwrites_and_accumulates (S : Sem F) (s : State F)
    (root j i : Nat) (c g : F) (hw : WF s) (hroot : root < s.length)
    (hj : j < s.length) (hne : j ≠ root) :
    topoOf (setGradAt s i g) root = topoOf s root ∧
      gradOf (backward S (setGradAt s root g) root) root = 1 ∧
      gradOf (backward S s root) root = 1 ∧
      gradOf (backward S (addGradAt s j c) root) j
        = gradOf (backward S s root) j + c := by
  have htopo_le : ∀ k ∈ (topoOf s root).reverse, k ≤ root := fun k hk =>
    topoOf_le hw root k (List.mem_reverse.mp hk)
  refine ⟨topoOf_setGradAt s i g root, ?_, ?_, ?_⟩
  · unfold backward
    rw [topoOf_setGradAt s root g root,
      foldl_runBack_grad_root S hw root _ _
        ((setGradAt_sameShape ..).trans_shape (setGradAt_sameShape ..)) htopo_le,
      gradOf_setGradAt,
      if_pos ⟨rfl, by rw [length_setGradAt]; exact hroot⟩]
  · unfold backward
    rw [foldl_runBack_grad_root S hw root _ _ (setGradAt_sameShape s root 1)
        htopo_le,
      gradOf_setGradAt, if_pos ⟨rfl, hroot⟩]
  · unfold backward
    rw [topoOf_addGradAt s j c root]
    refine (foldl_gradOffset S hw ((topoOf s root).reverse)
      ((setGradAt_sameShape ..).trans_shape (addGradAt_sameShape ..))
      (setGradAt_sameShape s root 1) ⟨?_, ?_⟩).2
    · intro k hk
      have hkj : k ≠ j := fun e => hk (e ▸ Relation.ReflTransGen.refl)
      rw [gradOf_setGradAt, gradOf_setGradAt, length_addGradAt]
      by_cases hkr : k = root ∧ root < s.length
      · rw [if_pos hkr, if_pos hkr]
      · rw [if_neg hkr, if_neg hkr, gradOf_addGradAt_ne s c hkj]
    · have hno : ¬(j = root ∧ root < s.length) := fun hh => hne hh.1
      rw [gradOf_setGradAt, gradOf_setGradAt, length_addGradAt, if_neg hno,
        if_neg hno, gradOf_addGradAt, if_pos ⟨rfl, hj⟩]

/-- Witness for C5 on the concrete fan-out graph (`root = 1`, `j = 0`): the
seed overwrites a prior root gradient of `7`, and pre-adding `5` to node 0
shifts its final gradient by exactly `5`. -/
theorem backward_seed_overwrites_and_accumulates_witness :
    topoOf (setGradAt (fanout ℝ) 0 7) 1 = topoOf (fanout ℝ) 1 ∧
      gradOf (backward realSem (setGradAt (fanout ℝ) 1 7) 1) 1 = 1 ∧
      gradOf (backward realSem (fanout ℝ) 1) 1 = 1 ∧
      gradOf (backward realSem (addGradAt (fanout ℝ) 0 5) 1) 0
        = gradOf (backward realSem (fanout ℝ) 1) 0 + 5 :=
  backward_seed_overwrites_and_accumulates realSem (fanout ℝ) 1 0 0 5 7
    (by decide) (by decide) (by decide) (by decide)

/-! ### Frame conditions (claim C10) -/

theorem mkValue_extends (s : State F) (v : F) : Extends (mkValue s v).1 s :=
  ⟨_, rfl⟩

theorem vadd_extends (s : State F) (a b : Nat) : Extends (vadd s a b).1 s :=
  ⟨_, rfl⟩

theorem vmul_extends (s : State F) (a b : Nat) : Extends (vmul s a b).1 s :=
  ⟨_, rfl⟩

theorem vpowNum_extends (S : Sem F) (s : State F) (a : Nat) (p : F) :
    Extends (vpowNum S s a p).1 s :=
  ⟨_, rfl⟩

theorem vexp_extends (S : Sem F) (s : State F) (a : Nat) :
    Extends (vexp S s a).1 s :=
  ⟨_, rfl⟩

theorem vtanh_extends (S : Sem F) (s : State F) (a : Nat) :
    Extends (vtanh S s a).1 s :=
  ⟨_, rfl⟩

theorem vneg_extends (s : State F) (a : Nat) : Extends (vneg s a).1 s :=
  (vmul_extends ..).trans_ext (mkValue_extends ..)

theorem vsub_extends (s : State F) (a b : Nat) : Extends (vsub s a b).1 s :=
  (vadd_extends ..).trans_ext (vneg_extends ..)

theorem vdiv_extends (S : Sem F) (s : State F) (a b : Nat) :
    Extends (vdiv S s a b).1 s :=
  (vmul_extends ..).trans_ext (vpowNum_extends ..)

/-- C10: no engine operation mutates an existing node except through its
gradient field.  Every forward operation (including the derived negate,
subtract, divide) leaves every pre-existing node — value, gradient, operand
set, operator tag and label — bit-for-bit unchanged and only appends fresh
nodes (one for the primitive operations; the wrapped literal plus the
product for negate and divide; three nodes for subtract).  `backward` keeps
the arena's length and every node's value, operand set, operator tag and
label; only gradients change. -/
theorem engine_mutates_only_gradients (S : Sem F) (s : State F)
    (a b root : Nat) (p : F) (i : Nat) (hi : i < s.length) :
    getValue (mkValue s p).1 i = getValue s i ∧
      getValue (vadd s a b).1 i = getValue s i ∧
      getValue (vmul s a b).1 i = getValue s i ∧
      getValue (vpowNum S s a p).1 i = getValue s i ∧
      getValue (vexp S s a).1 i = getValue s i ∧
      getValue (vtanh S s a).1 i = getValue s i ∧
      getValue (vneg s a).1 i = getValue s i ∧
      getValue (vsub s a b).1 i = getValue s i ∧
      getValue (vdiv S s a b).1 i = getValue s i ∧
      (vadd s a b).1.length = s.length + 1 ∧
      (vmul s a b).1.length = s.length + 1 ∧
      (vpowNum S s a p).1.length = s.length + 1 ∧
      (vexp S s a).1.length = s.length + 1 ∧
      (vtanh S s a).1.length = s.length + 1 ∧
      (vneg s a).1.length = s.length + 2 ∧
      (vsub s a b).1.length = s.length + 3 ∧
      (vdiv S s a b).1.length = s.length + 2 ∧
      (backward S s root).length = s.length ∧
      dataOf (backward S s root) i = dataOf s i ∧
      prevOf (backward S s root) i = prevOf s i ∧
      opOf (backward S s root) i = opOf s i ∧
      labelOf (backward S s root) i = labelOf s i := by
  have hb := backward_sameShape S s root
  refine ⟨(mkValue_extends s p).getValue_eq hi,
    (vadd_extends s a b).getValue_eq hi, (vmul_extends s a b).getValue_eq hi,
    (vpowNum_extends S s a p).getValue_eq hi,
    (vexp_extends S s a).getValue_eq hi, (vtanh_extends S s a).getValue_eq hi,
    (vneg_extends s a).getValue_eq hi, (vsub_extends s a b).getValue_eq hi,
    (vdiv_extends S s a b).getValue_eq hi, ?_, ?_, ?_, ?_, ?_, ?_, ?_, ?_,
    hb.1, (hb.2 i).1, (hb.2 i).2.1, (hb.2 i).2.2.1, (hb.2 i).2.2.2⟩ <;>
  simp [vadd, vmul, vpowNum, vexp, vtanh, vneg, vsub, vdiv, mkValue,
    pushValue]

/-- Witness for C10 on the fan-out graph, checking node 0 against every
operation (operands 0 and 1, root 1, exponent 2). -/
theorem engine_mutates_only_gradients_witness :
    getValue (mkValue (fanout ℝ) 2).1 0 = getValue (fanout ℝ) 0 ∧
      getValue (vadd (fanout ℝ) 0 1).1 0 = getValue (fanout ℝ) 0 ∧
      getValue (vmul (fanout ℝ) 0 1).1 0 = getValue (fanout ℝ) 0 ∧
      getValue (vpowNum realSem (fanout ℝ) 0 2).1 0 = getValue (fanout ℝ) 0 ∧
      getValue (vexp realSem (fanout ℝ) 0).1 0 = getValue (fanout ℝ) 0 ∧
      getValue (vtanh realSem (fanout ℝ) 0).1 0 = getValue (fanout ℝ) 0 ∧
      getValue (vneg (fanout ℝ) 0).1 0 = getValue (fanout ℝ) 0 ∧
      getValue (vsub (fanout ℝ) 0 1).1 0 = getValue (fanout ℝ) 0 ∧
      getValue (vdiv realSem (fanout ℝ) 0 1).1 0 = getValue (fanout ℝ) 0 ∧
      (vadd (fanout ℝ) 0 1).1.length = (fanout ℝ).length + 1 ∧
      (vmul (fanout ℝ) 0 1).1.length = (fanout ℝ).length + 1 ∧
      (vpowNum realSem (fanout ℝ) 0 2).1.length = (fanout ℝ).length + 1 ∧
      (vexp realSem (fanout ℝ) 0).1.length = (fanout ℝ).length + 1 ∧
      (vtanh realSem (fanout ℝ) 0).1.length = (fanout ℝ).length + 1 ∧
      (vneg (fanout ℝ) 0).1.length = (fanout ℝ).length + 2 ∧
      (vsub (fanout ℝ) 0 1).1.length = (fanout ℝ).length + 3 ∧
      (vdiv realSem (fanout ℝ) 0 1).1.length = (fanout ℝ).length + 2 ∧
      (backward realSem (fanout ℝ) 1).length = (fanout ℝ).length ∧
      dataOf (backward realSem (fanout ℝ) 1) 0 = dataOf (fanout ℝ) 0 ∧
      prevOf (backward realSem (fanout ℝ) 1) 0 = prevOf (fanout ℝ) 0 ∧
      opOf (backward realSem (fanout ℝ) 1) 0 = opOf (fanout ℝ) 0 ∧
      labelOf (backward realSem (fanout ℝ) 1) 0 = labelOf (fanout ℝ) 0 :=
  engine_mutates_only_gradients realSem (fanout ℝ) 0 1 1 2 0 (by decide)

/-! ### Neuron and Layer forward evaluation (claims C8, C9) -/

theorem pushLeaves_spec : ∀ (vs : List F) (s : State F),
    Extends (pushLeaves s vs).1 s ∧
      (pushLeaves s vs).1.length = s.length + vs.length ∧
      (∀ h ∈ (pushLeaves s vs).2, h < (pushLeaves s vs).1.length) ∧
      List.map (dataOf (pushLeaves s vs).1) (pushLeaves s vs).2 = vs := by
  intro vs
  induction vs with
  | nil =>
    intro s
    exact ⟨Extends.self_ext s, by simp [pushLeaves], by simp [pushLeaves], rfl⟩
  | cons v vs ih =>
    intro s
    obtain ⟨hext, hlen, hbound, hdata⟩ := ih (mkValue s v).1
    have hx : Extends (pushLeaves (mkValue s v).1 vs).1 s :=
      hext.trans_ext (mkValue_extends s v)
    have hsl : s.length < (mkValue s v).1.length := by
      simp [mkValue, pushValue]
    refine ⟨hx, ?_, ?_, ?_⟩
    · show (pushLeaves (mkValue s v).1 vs).1.length = _
      rw [hlen]
      simp [mkValue, pushValue]
      omega
    · intro h hh
      rcases List.mem_cons.mp hh with hh | hh
      · subst hh
        exact lt_of_lt_of_le hsl hext.length_le
      · exact hbound h hh
    · show dataOf (pushLeaves (mkValue s v).1 vs).1 s.length
          :: List.map (dataOf (pushLeaves (mkValue s v).1 vs).1)
              (pushLeaves (mkValue s v).1 vs).2
          = v :: vs
      rw [hdata, hext.dataOf_eq hsl]
      show dataOf (s ++ [⟨v, 0, [], .leaf, ""⟩]) s.length :: vs = v :: vs
      rw [show dataOf (s ++ [(⟨v, 0, [], .leaf, ""⟩ : Value F)]) s.length = v by
        unfold dataOf; rw [getValue_append_last]]

theorem mkNeuron_spec (s : State F) (ws : List F) (bv : F) :
    Extends (mkNeuron s ws bv).1 s ∧
      (mkNeuron s ws bv).1.length = s.length + ws.length + 1 ∧
      (mkNeuron s ws bv).2.w.length = ws.length ∧
      (∀ h ∈ neuronParams (mkNeuron s ws bv).2,
        h < (mkNeuron s ws bv).1.length) ∧
      List.map (dataOf (mkNeuron s ws bv).1) (mkNeuron s ws bv).2.w = ws ∧
      dataOf (mkNeuron s ws bv).1 (mkNeuron s ws bv).2.b = bv := by
  obtain ⟨hext, hlen, hbound, hdata⟩ := pushLeaves_spec ws s
  have hfin : (mkNeuron s ws bv).1
      = (pushLeaves s ws).1 ++ [⟨bv, 0, [], .leaf, ""⟩] := rfl
  have hb : (mkNeuron s ws bv).2.b = (pushLeaves s ws).1.length := rfl
  have hlast : Extends (mkNeuron s ws bv).1 (pushLeaves s ws).1 := ⟨_, hfin⟩
  refine ⟨hlast.trans_ext hext, ?_, ?_, ?_, ?_, ?_⟩
  · rw [hfin]
    simp [hlen]
  · show (pushLeaves s ws).2.length = ws.length
    have := congrArg List.length hdata
    simpa using this
  · intro h hh
    rcases List.mem_append.mp hh with hh | hh
    · have := hbound h hh
      have := hlast.length_le
      omega
    · rw [List.mem_singleton.mp hh, hb, hfin]
      simp
  · have hcongr : List.map (dataOf (mkNeuron s ws bv).1) (pushLeaves s ws).2
        = List.map (dataOf (pushLeaves s ws).1) (pushLeaves s ws).2 :=
      List.map_congr_left (fun h hh => hlast.dataOf_eq (hbound h hh))
    exact hcongr.trans hdata
  · rw [hb, hfin]
    show dataOf ((pushLeaves s ws).1 ++ [⟨bv, 0, [], .leaf, ""⟩])
        (pushLeaves s ws).1.length = bv
    unfold dataOf
    rw [getValue_append_last]

theorem neuronAct_spec : ∀ (whs xhs : List Nat) (s : State F) (acc : Nat),
    whs.length = xhs.length → acc < s.length → (∀ h ∈ whs, h < s.length) →
    (∀ h ∈ xhs, h < s.length) →
    Extends (neuronAct s whs xhs acc).1 s ∧
      (neuronAct s whs xhs acc).2 < (neuronAct s whs xhs acc).1.length ∧
      dataOf (neuronAct s whs xhs acc).1 (neuronAct s whs xhs acc).2
        = dataOf s acc +
          (List.map (fun q => q.1 * q.2)
            ((whs.map (dataOf s)).zip (xhs.map (dataOf s)))).sum := by
  intro whs
  induction whs with
  | nil =>
    intro xhs s acc _ hacc _ _
    cases xhs <;> exact ⟨Extends.self_ext s, hacc, by simp [neuronAct]⟩
  | cons w whs ih =>
    intro xhs s acc hlen hacc hw hx
    cases xhs with
    | nil => simp at hlen
    | cons x xhs =>
      have hws : w < s.length := hw w (List.mem_cons_self ..)
      have hxs : x < s.length := hx x (List.mem_cons_self ..)
      have hstep : neuronAct s (w :: whs) (x :: xhs) acc
          = neuronAct (vadd (vmul s w x).1 acc (vmul s w x).2).1 whs xhs
              (vadd (vmul s w x).1 acc (vmul s w x).2).2 := rfl
      set s1 := (vmul s w x).1 with hs1
      set s2 := (vadd s1 acc (vmul s w x).2).1 with hs2
      have hm : (vmul s w x).2 = s.length := rfl
      have ha2 : (vadd s1 acc (vmul s w x).2).2 = s1.length := rfl
      have hexts1 : Extends s1 s := vmul_extends s w x
      have hexts2 : Extends s2 s1 := vadd_extends s1 acc (vmul s w x).2
      have hlens1 : s1.length = s.length + 1 := by simp [hs1, vmul, pushValue]
      have hlens2 : s2.length = s1.length + 1 := by simp [hs2, vadd, pushValue]
      have hdm : dataOf s1 s.length = dataOf s w * dataOf s x := by
        show dataOf (s ++ [_]) s.length = _
        unfold dataOf
        rw [getValue_append_last]
      have hda : dataOf s2 s1.length = dataOf s acc + dataOf s w * dataOf s x := by
        show dataOf (s1 ++ [_]) s1.length = _
        unfold dataOf
        rw [getValue_append_last]
        show dataOf s1 acc + dataOf s1 (vmul s w x).2 = _
        rw [hm, hdm, hexts1.dataOf_eq hacc]
        rfl
      have hexts2s : Extends s2 s := hexts2.trans_ext hexts1
      obtain ⟨hext, hout, hdata⟩ := ih xhs s2 (vadd s1 acc (vmul s w x).2).2
        (by simpa using hlen)
        (by rw [ha2, hlens2]; omega)
        (fun h hh => by
          have := hw h (List.mem_cons_of_mem w hh); omega)
        (fun h hh => by
          have := hx h (List.mem_cons_of_mem x hh); omega)
      rw [hstep]
      refine ⟨hext.trans_ext hexts2s, hout, ?_⟩
      rw [hdata, ha2, hda,
        List.map_congr_left
          (fun h hh => hexts2s.dataOf_eq (hw h (List.mem_cons_of_mem w hh))),
        List.map_congr_left
          (fun h hh => hexts2s.dataOf_eq (hx h (List.mem_cons_of_mem x hh)))]
      simp only [List.map_cons, List.zip_cons_cons, List.sum_cons]
      ring

theorem neuronCall_spec (S : Sem F) (s : State F) (n : Neuron) (xs : List Nat)
    (hlen : n.w.length = xs.length) (hb : ∀ h ∈ neuronParams n, h < s.length)
    (hxs : ∀ x ∈ xs, x < s.length) :
    Extends (neuronCall S s n xs).1 s ∧
      (neuronCall S s n xs).2 < (neuronCall S s n xs).1.length ∧
      dataOf (neuronCall S s n xs).1 (neuronCall S s n xs).2
        = tanhF S (dataOf s n.b +
            (List.map (fun q => q.1 * q.2)
              ((n.w.map (dataOf s)).zip (xs.map (dataOf s)))).sum) := by
  have hbw : ∀ h ∈ n.w, h < s.length := fun h hh =>
    hb h (List.mem_append_left _ hh)
  have hbb : n.b < s.length :=
    hb n.b (List.mem_append_right _ (List.mem_singleton_self _))
  obtain ⟨hext, _, hdata⟩ := neuronAct_spec n.w xs s n.b hlen hbb hbw hxs
  refine ⟨(vtanh_extends ..).trans_ext hext, by simp [neuronCall, vtanh, pushValue], ?_⟩
  show dataOf ((neuronAct s n.w xs n.b).1 ++ [_])
      (neuronAct s n.w xs n.b).1.length = _
  unfold dataOf
  rw [getValue_append_last]
  show tanhF S (dataOf (neuronAct s n.w xs n.b).1 (neuronAct s n.w xs n.b).2)
      = _
  rw [hdata]
  rfl

/-- C8: a `Neuron` built from weight draws `ws` and bias draw `bv`, applied
to `n = |ws|` input nodes, produces a node whose value is
`tanh(Σ wᵢ·xᵢ + b)` — computed with the engine operations, so the fold is
`(..(b + w₀x₀) + w₁x₁ ..)` — and its `parameters()` is exactly the `n`
weight nodes followed by the bias node, in that order (their stored values
are `ws ++ [bv]`). -/
theorem neuron_forward_and_parameters (S : Sem F) (s : State F) (ws : List F)
    (bv : F) (xs : List Nat) (hlen : ws.length = xs.length)
    (hxs : ∀ x ∈ xs, x < s.length) :
    dataOf (neuronCall S (mkNeuron s ws bv).1 (mkNeuron s ws bv).2 xs).1
        (neuronCall S (mkNeuron s ws bv).1 (mkNeuron s ws bv).2 xs).2
      = tanhF S (bv +
          (List.map (fun q => q.1 * q.2) (ws.zip (xs.map (dataOf s)))).sum) ∧
      neuronParams (mkNeuron s ws bv).2
        = (mkNeuron s ws bv).2.w ++ [(mkNeuron s ws bv).2.b] ∧
      (mkNeuron s ws bv).2.w.length = ws.length ∧
      List.map (dataOf (mkNeuron s ws bv).1)
          (neuronParams (mkNeuron s ws bv).2)
        = ws ++ [bv] := by
  obtain ⟨hext, hlen1, hwlen, hbound, hwdata, hbdata⟩ := mkNeuron_spec s ws bv
  have hxs1 : ∀ x ∈ xs, x < (mkNeuron s ws bv).1.length := fun x hx =>
    lt_of_lt_of_le (hxs x hx) hext.length_le
  obtain ⟨_, _, hdata⟩ := neuronCall_spec S (mkNeuron s ws bv).1
    (mkNeuron s ws bv).2 xs (hwlen.trans hlen) hbound hxs1
  refine ⟨?_, rfl, hwlen, ?_⟩
  · rw [hdata, hbdata, hwdata,
      List.map_congr_left (fun x hx => hext.dataOf_eq (hxs x hx))]
  · show List.map _ ((mkNeuron s ws bv).2.w ++ [(mkNeuron s ws bv).2.b])
        = ws ++ [bv]
    rw [List.map_append, hwdata]
    simp [hbdata]

/-- Witness for C8: a one-input neuron with weight draw 3 and bias draw 4
applied to node 0 of the fan-out graph (which holds the value 3). -/
theorem neuron_forward_and_parameters_witness :
    dataOf (neuronCall realSem (mkNeuron (fanout ℝ) [3] 4).1
          (mkNeuron (fanout ℝ) [3] 4).2 [0]).1
        (neuronCall realSem (mkNeuron (fanout ℝ) [3] 4).1
          (mkNeuron (fanout ℝ) [3] 4).2 [0]).2
      = tanhF realSem (4 +
          (List.map (fun q => q.1 * q.2)
            (([3] : List ℝ).zip ([0].map (dataOf (fanout ℝ))))).sum) ∧
      neuronParams (mkNeuron (fanout ℝ) [3] 4).2
        = (mkNeuron (fanout ℝ) [3] 4).2.w ++ [(mkNeuron (fanout ℝ) [3] 4).2.b] ∧
      (mkNeuron (fanout ℝ) [3] 4).2.w.length = ([3] : List ℝ).length ∧
      List.map (dataOf (mkNeuron (fanout ℝ) [3] 4).1)
          (neuronParams (mkNeuron (fanout ℝ) [3] 4).2)
        = [3] ++ [4] :=
  neuron_forward_and_parameters realSem (fanout ℝ) [3] 4 [0] (by decide)
    (by decide)

theorem NeuronMatches.mono {s t : State F} (hext : Extends t s) {n : Neuron}
    {p : List F × F} (h : NeuronMatches s n p) : NeuronMatches t n p := by
  obtain ⟨h1, h2, h3, h4⟩ := h
  refine ⟨h1, fun hh hm => lt_of_lt_of_le (h2 hh hm) hext.length_le, ?_, ?_⟩
  · rw [List.map_congr_left
      (fun x hx => hext.dataOf_eq (h2 x (List.mem_append_left _ hx))), h3]
  · rw [hext.dataOf_eq
      (h2 n.b (List.mem_append_right _ (List.mem_singleton_self _))), h4]

theorem mkLayer_spec : ∀ (ps : List (List F × F)) (s : State F),
    Extends (mkLayer s ps).1 s ∧
      (mkLayer s ps).2.neurons.length = ps.length ∧
      List.Forall₂ (NeuronMatches (mkLayer s ps).1) (mkLayer s ps).2.neurons
        ps := by
  intro ps
  induction ps with
  | nil => intro s; exact ⟨Extends.self_ext s, rfl, List.Forall₂.nil⟩
  | cons p ps ih =>
    intro s
    obtain ⟨hext, hcnt, hmatch⟩ := ih (mkNeuron s p.1 p.2).1
    obtain ⟨hne, _, hnwlen, hnbound, hnwdata, hnbdata⟩ := mkNeuron_spec s p.1 p.2
    have hstep : mkLayer s (p :: ps)
        = ((mkLayer (mkNeuron s p.1 p.2).1 ps).1,
            ⟨(mkNeuron s p.1 p.2).2
              :: (mkLayer (mkNeuron s p.1 p.2).1 ps).2.neurons⟩) := rfl
    rw [hstep]
    refine ⟨hext.trans_ext hne, by simpa using hcnt, List.Forall₂.cons ?_ hmatch⟩
    exact NeuronMatches.mono hext ⟨hnwlen, hnbound, hnwdata, hnbdata⟩

theorem layerOuts_spec (S : Sem F) :
    ∀ (ns : List Neuron) (ps : List (List F × F)) (s : State F)
      (xs : List Nat), (∀ x ∈ xs, x < s.length) →
      (∀ p ∈ ps, (p.1 : List F).length = xs.length) →
      List.Forall₂ (NeuronMatches s) ns ps →
      Extends (layerOuts S s ns xs).1 s ∧
        (layerOuts S s ns xs).2.length = ns.length ∧
        List.map (dataOf (layerOuts S s ns xs).1) (layerOuts S s ns xs).2
          = ps.map (fun p => tanhF S (p.2 +
              (List.map (fun q => q.1 * q.2)
                (p.1.zip (xs.map (dataOf s)))).sum)) := by
  intro ns
  induction ns with
  | nil =>
    intro ps s xs _ _ hm
    cases hm
    exact ⟨Extends.self_ext s, rfl, rfl⟩
  | cons n ns ih =>
    intro ps s xs hxs hplen hm
    cases hm with
    | cons hp hps =>
      rename_i p ps'
      have hstep : layerOuts S s (n :: ns) xs
          = ((layerOuts S (neuronCall S s n xs).1 ns xs).1,
              (neuronCall S s n xs).2
                :: (layerOuts S (neuronCall S s n xs).1 ns xs).2) := rfl
      obtain ⟨hextc, houtc, hdatac⟩ := neuronCall_spec S s n xs
        (hp.1.trans (hplen p (List.mem_cons_self ..))) hp.2.1 hxs
      obtain ⟨hexto, hcnt, hdatao⟩ := ih ps' (neuronCall S s n xs).1 xs
        (fun x hx => lt_of_lt_of_le (hxs x hx) hextc.length_le)
        (fun q hq => hplen q (List.mem_cons_of_mem p hq))
        (hps.imp (fun a b hab => NeuronMatches.mono hextc hab))
      rw [hstep]
      refine ⟨hexto.trans_ext hextc, by simpa using hcnt, ?_⟩
      simp only [List.map_cons]
      rw [hexto.dataOf_eq houtc, hdatac, hp.2.2.1, hp.2.2.2, hdatao,
        List.map_congr_left (fun x hx => hextc.dataOf_eq (hxs x hx))]

theorem map_params_of_forall₂ {s : State F} :
    ∀ {ns : List Neuron} {ps : List (List F × F)},
      List.Forall₂ (NeuronMatches s) ns ps →
      List.map (fun n => List.map (dataOf s) (neuronParams n)) ns
        = ps.map (fun p => p.1 ++ [p.2]) := by
  intro ns ps h
  induction h with
  | nil => rfl
  | cons hp _ ih =>
    simp only [List.map_cons, ih]
    congr 1
    show List.map (dataOf s) (_ ++ [_]) = _
    rw [List.map_append, hp.2.2.1]
    simp [hp.2.2.2]

/-- C9: a `Layer` built from the per-neuron draws `ps`, applied to the input
handles `xs`, yields one output node per unit in unit order — their values
are each unit's `tanh(Σ wᵢ·xᵢ + b)` over the shared inputs — except that
`Layer.__call__` returns the single node directly (unwrapped) exactly when
the unit count is one, and a list otherwise; and `parameters()` is the
concatenation of the units' parameter values, in unit order. -/
theorem layer_forward_and_parameters (S : Sem F) (s : State F)
    (ps : List (List F × F)) (xs : List Nat)
    (hxs : ∀ x ∈ xs, x < s.length)
    (hplen : ∀ p ∈ ps, (p.1 : List F).length = xs.length) :
    (layerOuts S (mkLayer s ps).1 (mkLayer s ps).2.neurons xs).2.length
        = ps.length ∧
      List.map
          (dataOf (layerOuts S (mkLayer s ps).1 (mkLayer s ps).2.neurons xs).1)
          (layerOuts S (mkLayer s ps).1 (mkLayer s ps).2.neurons xs).2
        = ps.map (fun p => tanhF S (p.2 +
            (List.map (fun q => q.1 * q.2)
              (p.1.zip (xs.map (dataOf s)))).sum)) ∧
      layerCall S (mkLayer s ps).1 (mkLayer s ps).2 xs
        = ((layerOuts S (mkLayer s ps).1 (mkLayer s ps).2.neurons xs).1,
            if ps.length = 1
            then LayerOut.single
              ((layerOuts S (mkLayer s ps).1
                (mkLayer s ps).2.neurons xs).2.headD 0)
            else LayerOut.multi
              (layerOuts S (mkLayer s ps).1 (mkLayer s ps).2.neurons xs).2) ∧
      List.map
          (dataOf (layerOuts S (mkLayer s ps).1 (mkLayer s ps).2.neurons xs).1)
          (layerParams (mkLayer s ps).2)
        = (ps.map (fun p => p.1 ++ [p.2])).flatten := by
  obtain ⟨hextL, hcntL, hmatch⟩ := mkLayer_spec ps s
  obtain ⟨hexto, hcnt, hdata⟩ := layerOuts_spec S (mkLayer s ps).2.neurons ps
    (mkLayer s ps).1 xs
    (fun x hx => lt_of_lt_of_le (hxs x hx) hextL.length_le) hplen hmatch
  have hlen : (layerOuts S (mkLayer s ps).1 (mkLayer s ps).2.neurons xs).2.length
      = ps.length := hcnt.trans hcntL
  refine ⟨hlen, ?_, ?_, ?_⟩
  · rw [hdata]
    simp only [List.map_congr_left (fun x hx => hextL.dataOf_eq (hxs x hx))]
  · simp only [layerCall]
    rw [hlen]
  · unfold layerParams
    rw [List.map_flatten, List.map_map]
    show (List.map (fun n => List.map _ (neuronParams n))
        (mkLayer s ps).2.neurons).flatten = _
    rw [map_params_of_forall₂
      (hmatch.imp (fun a b hab => NeuronMatches.mono hexto hab))]

/-- Witness for C9: a single-unit layer (weight draw 3, bias draw 4) on node
0 of the fan-out graph — exercising the unit-count-one unwrapping. -/
theorem layer_forward_and_parameters_witness :
    (layerOuts realSem (mkLayer (fanout ℝ) [([3], 4)]).1
          (mkLayer (fanout ℝ) [([3], 4)]).2.neurons [0]).2.length
        = ([([3], 4)] : List (List ℝ × ℝ)).length ∧
      List.map
          (dataOf (layerOuts realSem (mkLayer (fanout ℝ) [([3], 4)]).1
            (mkLayer (fanout ℝ) [([3], 4)]).2.neurons [0]).1)
          (layerOuts realSem (mkLayer (fanout ℝ) [([3], 4)]).1
            (mkLayer (fanout ℝ) [([3], 4)]).2.neurons [0]).2
        = ([([3], 4)] : List (List ℝ × ℝ)).map (fun p =>
            tanhF realSem (p.2 +
              (List.map (fun q => q.1 * q.2)
                (p.1.zip ([0].map (dataOf (fanout ℝ))))).sum)) ∧
      layerCall realSem (mkLayer (fanout ℝ) [([3], 4)]).1
          (mkLayer (fanout ℝ) [([3], 4)]).2 [0]
        = ((layerOuts realSem (mkLayer (fanout ℝ) [([3], 4)]).1
              (mkLayer (fanout ℝ) [([3], 4)]).2.neurons [0]).1,
            if ([([3], 4)] : List (List ℝ × ℝ)).length = 1
            then LayerOut.single
              ((layerOuts realSem (mkLayer (fanout ℝ) [([3], 4)]).1
                (mkLayer (fanout ℝ) [([3], 4)]).2.neurons [0]).2.headD 0)
            else LayerOut.multi
              (layerOuts realSem (mkLayer (fanout ℝ) [([3], 4)]).1
                (mkLayer (fanout ℝ) [([3], 4)]).2.neurons [0]).2) ∧
      List.map
          (dataOf (layerOuts realSem (mkLayer (fanout ℝ) [([3], 4)]).1
            (mkLayer (fanout ℝ) [([3], 4)]).2.neurons [0]).1)
          (layerParams (mkLayer (fanout ℝ) [([3], 4)]).2)
        = (([([3], 4)] : List (List ℝ × ℝ)).map (fun p => p.1 ++ [p.2])).flatten :=
  layer_forward_and_parameters realSem (fanout ℝ) [([3], 4)] [0] (by decide)
    (by decide)

end Micrograd
